import Mathlib

/-!
Verification of the syncthing conflict resolver (`src/main.py`).

The script walks a directory tree, collects filenames matching the
`.sync-conflict-` marker pattern, parses the embedded timestamp, groups the
resulting records by reconstructed original path, sorts each group by
timestamp descending, plans one action per record (keep the newest, delete or
back up the rest), prints a report row per action and, unless `--dry-run` is
given, applies the action to the filesystem.

This file gives a shallow embedding of that pipeline:
* strings stay strings; filenames are processed as `List Char`;
* the two regexes of the source (`^.+\.sync-conflict-.+` and
  `sync-conflict-(\d\x7b8\x7d)-(\d\x7b6\x7d)-[A-Z0-9]+`) are embedded as
  executable scanners over character lists (ASCII digits; filenames are
  assumed not to contain newline characters, so `.` is any character);
* `datetime.strptime(f"\x7bdate\x7d \x7btime\x7d", "%Y%m%d %H%M%S")` applied to the 8-digit
  and 6-digit regex groups succeeds exactly on valid calendar datetimes
  (CPython `_strptime` consumes the fixed-width digit string as 4+2+2 and
  2+2+2 digits, and the `datetime` constructor then validates ranges:
  year >= 1, 1 <= month <= 12, 1 <= day <= days in month, hour <= 23,
  minute <= 59, second <= 59); failure raises an uncaught `ValueError`,
  modelled as an `Except.error` aborting the scan;
* timestamps are encoded as the number `YYYYMMDD * 1000000 + HHMMSS`, whose
  numeric order coincides with `datetime` order for valid datetimes;
* the insertion-ordered Python `dict` used for grouping becomes an
  association list that appends new keys at the end, and the stable
  `list.sort(key=..., reverse=True)` becomes a stable descending insertion
  sort;
* the filesystem seen by the executor is an explicit state: an association
  list of files, a list of directories, and a table of preformatted
  modification times (`datetime.fromtimestamp(...).strftime(...)` output) for
  the `os.path.exists`/`os.path.getmtime` reads done during planning;
* `os.walk` input is given as the list of `(root, files-with-sizes)` pairs it
  would yield; with the default `onerror=None`, a missing or non-directory
  root makes `os.walk` yield nothing, modelled by a `rootIsDir` flag;
* the report is the list of printed lines (header, separator, one row per
  action), built exactly as the Python format strings build them.
-/

/-! ## Path helpers (`os.path`) -/

/-- POSIX `os.path.join root name` for a relative `name` (filenames produced
by `os.walk` contain no slash). -/
def pjoin (a b : String) : String :=
  if a = "" then b
  else if a.data.getLast? = some '/' then a ++ b
  else a ++ "/" ++ b

/-- POSIX `os.path.basename` for paths without a trailing slash: the part
after the last slash. -/
def basename (p : String) : String :=
  String.mk (p.data.foldl (fun acc c => if c = '/' then [] else acc ++ [c]) [])

/-! ## Filename parser -/

/-- The marker token of the timestamp regex, `sync-conflict-`. -/
def tsToken : List Char := "sync-conflict-".data

/-- The dot-prefixed marker `.sync-conflict-` used by the match regex and by
`str.split`. -/
def dotMarker : List Char := ".sync-conflict-".data

/-- If `tok` is a prefix of `l`, return the remainder of `l`, else `none`. -/
def dropToken : List Char → List Char → Option (List Char)
  | [], l => some l
  | _ :: _, [] => none
  | t :: ts, c :: cs => if c = t then dropToken ts cs else none

/-- Does `.sync-conflict-` occur starting at this or a later position, with at
least one character after it? -/
def hasDotMarkerFrom : List Char → Bool
  | [] => false
  | c :: rest =>
    (match dropToken dotMarker (c :: rest) with
     | some (_ :: _) => true
     | _ => false)
    || hasDotMarkerFrom rest

/-- `re.compile(r".+\.sync-conflict-.+").match name`: some occurrence of
`.sync-conflict-` starts at index at least 1 and has at least one character
after it. -/
def reConflict (name : String) : Bool :=
  match name.data with
  | [] => false
  | _ :: rest => hasDotMarkerFrom rest

/-- Take exactly `n` ASCII digits off the front of `l`, returning them and
the remainder. -/
def takeDigits : Nat → List Char → Option (List Char × List Char)
  | 0, l => some ([], l)
  | _ + 1, [] => none
  | n + 1, c :: rest =>
    if c.isDigit then (takeDigits n rest).map (fun p => (c :: p.1, p.2))
    else none

/-- `[A-Z0-9]` (ASCII). -/
def isUpperAlnum (c : Char) : Bool :=
  (65 ≤ c.toNat && c.toNat ≤ 90) || (48 ≤ c.toNat && c.toNat ≤ 57)

/-- Try to match `sync-conflict-(\d\x7b8\x7d)-(\d\x7b6\x7d)-[A-Z0-9]+` at the start of
`l`; on success return the two digit groups. -/
def matchTsAt (l : List Char) : Option (List Char × List Char) :=
  match dropToken tsToken l with
  | none => none
  | some r0 =>
    match takeDigits 8 r0 with
    | none => none
    | some (d8, r1) =>
      match r1 with
      | '-' :: r2 =>
        match takeDigits 6 r2 with
        | none => none
        | some (d6, r3) =>
          match r3 with
          | '-' :: c :: _ => if isUpperAlnum c then some (d8, d6) else none
          | _ => none
      | _ => none

/-- `re.search`: try `matchTsAt` at every position, leftmost first. -/
def searchTs : List Char → Option (List Char × List Char)
  | [] => none
  | c :: rest =>
    match matchTsAt (c :: rest) with
    | some r => some r
    | none => searchTs rest

/-- Proleptic-Gregorian leap year, as used by `datetime`. -/
def isLeap (y : Nat) : Bool :=
  (y % 4 == 0 && y % 100 != 0) || y % 400 == 0

/-- Number of days of month `m` in year `y`, as validated by `datetime`. -/
def daysInMonth (y m : Nat) : Nat :=
  if m = 2 then (if isLeap y then 29 else 28)
  else if m = 4 ∨ m = 6 ∨ m = 9 ∨ m = 11 then 30
  else 31

/-- Numeric value of a list of ASCII digits. -/
def digitsToNat (l : List Char) : Nat :=
  l.foldl (fun acc c => acc * 10 + (c.toNat - 48)) 0

/-- `datetime.strptime(f"\x7bdate_str\x7d \x7btime_str\x7d", "%Y%m%d %H%M%S")` applied to
the 8-digit group `d8` and the 6-digit group `d6`: the digits are consumed
fixed-width (4+2+2 and 2+2+2) and the resulting fields must form a valid
`datetime`; otherwise `ValueError` is raised (`none` here).  The successful
result is encoded as `YYYYMMDD * 1000000 + HHMMSS`, which is order-isomorphic
to `datetime` order. -/
def strptimeYmdHms (d8 d6 : List Char) : Option Nat :=
  let y := digitsToNat (d8.take 4)
  let mo := digitsToNat ((d8.drop 4).take 2)
  let d := digitsToNat (d8.drop 6)
  let h := digitsToNat (d6.take 2)
  let mi := digitsToNat ((d6.drop 2).take 2)
  let s := digitsToNat (d6.drop 4)
  if 1 ≤ y ∧ 1 ≤ mo ∧ mo ≤ 12 ∧ 1 ≤ d ∧ d ≤ daysInMonth y mo ∧
     h ≤ 23 ∧ mi ≤ 59 ∧ s ≤ 59
  then some (digitsToNat d8 * 1000000 + digitsToNat d6)
  else none

/-- Fuel-driven `str.split(".sync-conflict-")` on character lists
(non-overlapping occurrences, left to right). -/
def splitMarkerFuel : Nat → List Char → List (List Char)
  | _, [] => [[]]
  | 0, l => [l]
  | n + 1, c :: rest =>
    match dropToken dotMarker (c :: rest) with
    | some r => [] :: splitMarkerFuel n r
    | none =>
      match splitMarkerFuel n rest with
      | [] => [[c]]
      | p :: ps => (c :: p) :: ps

/-- `base_name.split(".sync-conflict-")`. -/
def splitMarker (l : List Char) : List (List Char) :=
  splitMarkerFuel l.length l

/-- Lines 43-56 of the source: `file_name` is the part of the name before the
first `.sync-conflict-`.  The source then matches `original_parts[1]` against
`[A-Z0-9]+\.(.+)$` and, on a match, executes `file_name = file_name`, a
self-assignment with no effect, so a trailing extension is never re-appended.
The `else` branch is unreachable here because callers guard with
`reConflict`. -/
def reconstructOriginal (base_name : String) : String :=
  let original_parts := splitMarker base_name.data
  if 1 < original_parts.length then
    String.mk (original_parts.headD [])
  else base_name

/-! ## Scanner -/

/-- One conflict record (`namedtuple('Conflict', ...)`). -/
structure Conflict where
  conflict_path : String
  file_path : String
  timestamp : Nat
deriving DecidableEq, Repr

/-- Outcome of the per-file part of the walk loop (lines 27-58): a record is
appended, the file is skipped, or an uncaught `ValueError` aborts the run. -/
inductive ScanOutcome
  | record (c : Conflict)
  | skip
  | err
deriving DecidableEq, Repr

/-- Lines 27-58 of the source for a single directory entry. -/
def processFile (root name : String) (size : Nat) : ScanOutcome :=
  if reConflict name then
    if size = 0 then .skip
    else
      match searchTs name.data with
      | some (d8, d6) =>
        match strptimeYmdHms d8 d6 with
        | some ts => .record ⟨pjoin root name, pjoin root (reconstructOriginal name), ts⟩
        | none => .err
      | none => .skip
  else .skip

/-- Process the files of one directory in order; an exception aborts
immediately. -/
def scanFiles (root : String) : List (String × Nat) → Except Unit (List Conflict)
  | [] => .ok []
  | (name, size) :: rest =>
    match processFile root name size with
    | .err => .error ()
    | .skip => scanFiles root rest
    | .record c =>
      match scanFiles root rest with
      | .error e => .error e
      | .ok cs => .ok (c :: cs)

/-- The whole `os.walk` loop over the yielded `(root, files)` pairs. -/
def scanTree : List (String × List (String × Nat)) → Except Unit (List Conflict)
  | [] => .ok []
  | (root, files) :: rest =>
    match scanFiles root files with
    | .error e => .error e
    | .ok cs =>
      match scanTree rest with
      | .error e => .error e
      | .ok cs2 => .ok (cs ++ cs2)

/-! ## Grouper / resolver -/

/-- One step of the grouping loop (lines 62-65): Python dicts are
insertion-ordered, so a new key goes to the end and an existing key has the
record appended to its list. -/
def insertRecord (acc : List (String × List Conflict)) (c : Conflict) :
    List (String × List Conflict) :=
  if acc.any (fun p => p.1 == c.file_path) then
    acc.map (fun p => if p.1 = c.file_path then (p.1, p.2 ++ [c]) else p)
  else acc ++ [(c.file_path, [c])]

/-- `conflicts_by_path` after the grouping loop. -/
def groupByPath (records : List Conflict) : List (String × List Conflict) :=
  records.foldl insertRecord []

/-- The member list stored for key `k` (first entry with that key). -/
def groupFor (acc : List (String × List Conflict)) (k : String) : List Conflict :=
  match acc.find? (fun p => p.1 == k) with
  | some p => p.2
  | none => []

/-- The keys of the grouping dict in first-seen order. -/
def firstSeenKeys (records : List Conflict) : List String :=
  records.foldl (fun ks c => if c.file_path ∈ ks then ks else ks ++ [c.file_path]) []

/-- Insert into a descending-sorted list, before the first element whose
timestamp is not larger: this realizes the stability of Python
`list.sort(key=..., reverse=True)` (earlier input comes first among equal
timestamps). -/
def insertDesc (c : Conflict) : List Conflict → List Conflict
  | [] => [c]
  | x :: xs => if x.timestamp ≤ c.timestamp then c :: x :: xs else x :: insertDesc c xs

/-- Stable sort by timestamp descending (`conflicts.sort(key=..., reverse=True)`). -/
def sortDesc (l : List Conflict) : List Conflict :=
  l.foldr insertDesc []

/-- The grouping dict after the in-place sort of line 69. -/
def groupsSorted (records : List Conflict) : List (String × List Conflict) :=
  (groupByPath records).map (fun g => (g.1, sortDesc g.2))

/-- Dispositions (`ACTION_KEEP` / `ACTION_DELETE` / `ACTION_BACKUP`). -/
inductive Dispo
  | keep
  | delete
  | backup
deriving DecidableEq, Repr

/-- One entry of the `actions` list. -/
structure ActionInfo where
  conflict : Conflict
  action : Dispo
  original_timestamp : String
deriving DecidableEq, Repr

/-- `--backup-dir` configuration: `args.backup_dir` is truthy iff provided
and non-empty. -/
def backupTruthy : Option String → Bool
  | none => false
  | some s => if s = "" then false else true

/-- Runtime configuration from argparse. -/
structure Config where
  dry_run : Bool
  backup_dir : Option String
deriving DecidableEq, Repr

/-- The disposition given to members at index at least 1 (lines 87-99). -/
def loserAction (cfg : Config) : Dispo :=
  if backupTruthy cfg.backup_dir then .backup else .delete

/-! ## Filesystem state for the executor -/

/-- Association-list lookup. -/
def lookupA {α : Type} : List (String × α) → String → Option α
  | [], _ => none
  | (k, v) :: rest, key => if k = key then some v else lookupA rest key

/-- Remove every binding of `key`. -/
def removeA {α : Type} (l : List (String × α)) (key : String) : List (String × α) :=
  l.filter (fun p => !(p.1 == key))

/-- Overwrite the binding of `key`. -/
def setA {α : Type} (l : List (String × α)) (key : String) (v : α) : List (String × α) :=
  removeA l key ++ [(key, v)]

/-- Executor-visible filesystem: regular files (path to an abstract content
token), directories, and the preformatted `strftime` output of
`os.path.getmtime` for paths that have one. -/
structure Fs where
  files : List (String × Nat)
  dirs : List String
  mtimeDisplay : List (String × String)
deriving DecidableEq, Repr

/-- `os.path.exists`. -/
def fsExists (fs : Fs) (p : String) : Bool :=
  (lookupA fs.files p).isSome || fs.dirs.contains p

/-- Lines 76-78: the informational `original_timestamp` column, `N/A` when
the original path does not exist as a file. -/
def origTsDisplay (fs : Fs) (p : String) : String :=
  if (lookupA fs.files p).isSome then
    match lookupA fs.mtimeDisplay p with
    | some s => s
    | none => "N/A"
  else "N/A"

/-- `os.rename src dst` (overwrites `dst`); identity if `src` is missing,
which the caller rules out with an existence check. -/
def renameFs (fs : Fs) (src dst : String) : Fs :=
  match lookupA fs.files src with
  | some v => { fs with files := setA (removeA fs.files src) dst v }
  | none => fs

/-- `os.remove`. -/
def removeFs (fs : Fs) (p : String) : Fs :=
  { fs with files := removeA fs.files p }

/-- `os.makedirs(..., exist_ok=True)`. -/
def mkdirFs (fs : Fs) (d : String) : Fs :=
  { fs with dirs := d :: fs.dirs }

/-! ## Planner -/

/-- Lines 73-99 for one (already sorted) group: the newest conflict is kept,
the rest are backed up or deleted; the group's `original_timestamp` is
computed once and shared.  A group is never empty (the source would raise
`IndexError` otherwise; the `[]` case is unreachable). -/
def planGroup (cfg : Config) (origTs : String) : List Conflict → List ActionInfo
  | [] => []
  | newest :: older =>
    ⟨newest, .keep, origTs⟩ :: older.map (fun c => ⟨c, loserAction cfg, origTs⟩)

/-- The full `actions` list (lines 72-99), in dict order. -/
def actionsOf (cfg : Config) (fs : Fs) (records : List Conflict) : List ActionInfo :=
  (groupsSorted records).flatMap (fun g => planGroup cfg (origTsDisplay fs g.1) g.2)

/-- The action the code assigns to record `c`: the disposition of the first
action entry carrying `c`. -/
def dispositionOf (cfg : Config) (fs : Fs) (records : List Conflict) (c : Conflict) :
    Option Dispo :=
  ((actionsOf cfg fs records).find? (fun a => a.conflict == c)).map (fun a => a.action)

/-! ## Report formatting -/

/-- `"\x7b:<w\x7d"`: left-align, pad with spaces to width `w`, never truncate. -/
def fmtCol (w : Nat) (s : String) : String :=
  s ++ String.mk (List.replicate (w - s.length) ' ')

/-- Python `s[-k:]` on a character list (`k = 0` yields the whole list). -/
def takeLastPy (k : Nat) (l : List Char) : List Char :=
  if k = 0 then l else l.drop (l.length - k)

/-- Lines 144-146: over-long filenames are truncated from the left with an
ellipsis prefix. -/
def truncName (w : Nat) (s : String) : String :=
  if w < s.length then "..." ++ String.mk (takeLastPy (w - 3) s.data) else s

/-- Fixed column widths and separators: `action_width + 2*timestamp_width + 9`. -/
def otherColumnsWidth : Nat := 10 + 19 * 2 + 9

/-- Line 115: remaining space goes to the filename column, minimum 40. -/
def filenameWidth (termWidth : Nat) : Nat :=
  max 40 (termWidth - otherColumnsWidth)

/-- Zero-padded decimal rendering. -/
def padNum (w n : Nat) : String :=
  let s := toString n
  String.mk (List.replicate (w - s.length) '0') ++ s

/-- `conflict.timestamp.strftime("%Y-%m-%d %H:%M:%S")` on the encoded
timestamp. -/
def fmtTs (ts : Nat) : String :=
  let date := ts / 1000000
  let time := ts % 1000000
  padNum 4 (date / 10000) ++ "-" ++ padNum 2 (date / 100 % 100) ++ "-" ++
    padNum 2 (date % 100) ++ " " ++ padNum 2 (time / 10000) ++ ":" ++
    padNum 2 (time / 100 % 100) ++ ":" ++ padNum 2 (time % 100)

/-- `"KEEP"` / `"DELETE"` / `"BACKUP"`. -/
def actionText : Dispo → String
  | .keep => "KEEP"
  | .delete => "DELETE"
  | .backup => "BACKUP"

/-- One printed report row (line 149). -/
def rowOf (fnW : Nat) (a : ActionInfo) : String :=
  fmtCol fnW (truncName fnW a.conflict.conflict_path) ++ " | " ++
    fmtCol 10 (actionText a.action) ++ " | " ++
    fmtCol 19 a.original_timestamp ++ " | " ++
    fmtCol 19 (fmtTs a.conflict.timestamp)

/-- The header row (line 122). -/
def headerLine (termWidth : Nat) : String :=
  fmtCol (filenameWidth termWidth) "Filename" ++ " | " ++ fmtCol 10 "Action" ++
    " | " ++ fmtCol 19 "Original Time" ++ " | " ++ fmtCol 19 "Conflict Time"

/-- The separator row (line 126). -/
def sepLine (termWidth : Nat) : String :=
  String.mk (List.replicate (filenameWidth termWidth + otherColumnsWidth) '-')

/-! ## Executor -/

/-- Kinds of filesystem calls made by the executor. -/
inductive MutKind
  | rename
  | remove
  | mkdir
  | move
deriving DecidableEq, Repr

/-- Observable events of the action loop, tagged with the group key
(`file_path`) and the conflict file path of the record involved. -/
inductive Event
  | printRow (group cp : String)
  | fsMut (kind : MutKind) (group cp : String)
deriving DecidableEq, Repr

/-- Destructive per the report contract: rename, delete, move (directory
creation is not). -/
def isDestructive : MutKind → Bool
  | .mkdir => false
  | _ => true

/-- Lines 152-167: the mutating part of one loop iteration (only reached when
not in dry-run mode).  Every branch is guarded by
`os.path.exists(conflict_path)`; a backup ensures the backup directory exists
and moves the conflict file there under its original basename.  The
`backup_dir = none` case under `.backup` is unreachable: backup actions are
only planned when `backupTruthy` holds. -/
def performAction (bd : Option String) (a : ActionInfo) (fs : Fs) :
    List Event × Fs :=
  let cp := a.conflict.conflict_path
  let gk := a.conflict.file_path
  match a.action with
  | .keep =>
    if fsExists fs cp then ([.fsMut .rename gk cp], renameFs fs cp a.conflict.file_path)
    else ([], fs)
  | .delete =>
    if fsExists fs cp then ([.fsMut .remove gk cp], removeFs fs cp)
    else ([], fs)
  | .backup =>
    if fsExists fs cp then
      match bd with
      | some b =>
        let mburst := if fsExists fs b then ([], fs) else ([Event.fsMut .mkdir gk cp], mkdirFs fs b)
        (mburst.1 ++ [Event.fsMut .move gk cp], renameFs mburst.2 cp (pjoin b (basename cp)))
      | none => ([], fs)
    else ([], fs)

/-- The action loop (lines 129-167): print the row, then (in live mode)
perform the action.  Returns the printed rows, the event trace, and the final
filesystem. -/
def execute (dry : Bool) (bd : Option String) (fnW : Nat) :
    List ActionInfo → Fs → List String × List Event × Fs
  | [], fs => ([], [], fs)
  | a :: rest, fs =>
    let row := rowOf fnW a
    let pr := Event.printRow a.conflict.file_path a.conflict.conflict_path
    let step := if dry then ([], fs) else performAction bd a fs
    let next := execute dry bd fnW rest step.2
    (row :: next.1, pr :: step.1 ++ next.2.1, next.2.2)

/-! ## Whole run -/

/-- The world a run starts from: whether the root path is a directory, the
`(root, files-with-sizes)` sequence `os.walk` would yield for it, and the
executor-visible filesystem state. -/
structure World where
  rootIsDir : Bool
  tree : List (String × List (String × Nat))
  fs : Fs
deriving DecidableEq, Repr

/-- Result of a completed run. -/
structure RunResult where
  report : List String
  events : List Event
  fs : Fs
deriving DecidableEq, Repr

/-- `os.walk args.path` with the default `onerror=None`: a root that is
missing or not a directory yields nothing at all (the top-level `scandir`
error is swallowed). -/
def walkOf (w : World) : List (String × List (String × Nat)) :=
  if w.rootIsDir then w.tree else []

/-- The whole of `main()`: scan (an invalid embedded timestamp raises and
aborts before any output), group, sort, plan, print the header and one row
per action, and apply actions unless `--dry-run`. -/
def runMain (cfg : Config) (termWidth : Nat) (w : World) : Except Unit RunResult :=
  match scanTree (walkOf w) with
  | .error e => .error e
  | .ok records =>
    let plans := actionsOf cfg w.fs records
    let r := execute cfg.dry_run cfg.backup_dir (filenameWidth termWidth) plans w.fs
    .ok ⟨headerLine termWidth :: sepLine termWidth :: r.1, r.2.1, r.2.2⟩

/-- Is an event a report-row print? -/
def isPrintEvent : Event → Bool
  | .printRow _ _ => true
  | .fsMut _ _ _ => false

/-- The per-group report contract claimed by the spec: once a destructive
mutation of a group has happened, no further row of that group is printed. -/
def groupPrintsFirst : List Event → Bool
  | [] => true
  | .printRow _ _ :: rest => groupPrintsFirst rest
  | .fsMut k g _ :: rest =>
    (if isDestructive k then
      rest.all (fun e =>
        match e with
        | .printRow g2 _ => !(g2 == g)
        | .fsMut _ _ _ => true)
     else true)
    && groupPrintsFirst rest

/-- The per-record ordering that does hold: a mutation for conflict path `cp`
only appears after the row for `cp` was printed (`seen` accumulates printed
conflict paths). -/
def rowsPrecedeOwnMut : List Event → List String → Bool
  | [], _ => true
  | .printRow _ cp :: rest, seen => rowsPrecedeOwnMut rest (cp :: seen)
  | .fsMut _ _ cp :: rest, seen => seen.contains cp && rowsPrecedeOwnMut rest seen

/-! ## Lemmas about the stable descending sort -/

/-- The timestamp-descending order used throughout. -/
def TsSorted (l : List Conflict) : Prop :=
  l.Pairwise (fun a b => b.timestamp ≤ a.timestamp)

theorem insertDesc_perm (c : Conflict) (l : List Conflict) :
    List.Perm (insertDesc c l) (c :: l) := by
  induction l with
  | nil => exact List.Perm.refl _
  | cons x xs ih =>
    by_cases h : x.timestamp ≤ c.timestamp
    · simp [insertDesc, h]
    · simp only [insertDesc, if_neg h]
      exact (ih.cons x).trans (List.Perm.swap c x xs)

theorem mem_insertDesc {r c : Conflict} {l : List Conflict} :
    r ∈ insertDesc c l ↔ r = c ∨ r ∈ l := by
  rw [(insertDesc_perm c l).mem_iff, List.mem_cons]

theorem insertDesc_sorted (c : Conflict) {l : List Conflict} (h : TsSorted l) :
    TsSorted (insertDesc c l) := by
  induction l with
  | nil => simp [insertDesc, TsSorted]
  | cons x xs ih =>
    rw [TsSorted, List.pairwise_cons] at h
    by_cases hx : x.timestamp ≤ c.timestamp
    · simp only [insertDesc, if_pos hx]
      rw [TsSorted, List.pairwise_cons]
      refine ⟨?_, List.pairwise_cons.mpr h⟩
      intro y hy
      rcases List.mem_cons.mp hy with rfl | hy'
      · exact hx
      · exact le_trans (h.1 y hy') hx
    · simp only [insertDesc, if_neg hx]
      rw [TsSorted, List.pairwise_cons]
      refine ⟨?_, ih h.2⟩
      intro y hy
      rcases mem_insertDesc.mp hy with rfl | hy'
      · exact le_of_lt (lt_of_not_le hx)
      · exact h.1 y hy'

theorem sortDesc_perm (l : List Conflict) : List.Perm (sortDesc l) l := by
  induction l with
  | nil => exact List.Perm.refl _
  | cons c rest ih => exact (insertDesc_perm c (sortDesc rest)).trans (ih.cons c)

theorem sortDesc_sorted (l : List Conflict) : TsSorted (sortDesc l) := by
  induction l with
  | nil => simp [sortDesc, TsSorted]
  | cons c rest ih => exact insertDesc_sorted c ih

theorem sortDesc_head_max {l : List Conflict} {c : Conflict} {cs : List Conflict}
    (h : sortDesc l = c :: cs) : ∀ r ∈ l, r.timestamp ≤ c.timestamp := by
  intro r hr
  have hmem : r ∈ c :: cs := h ▸ (sortDesc_perm l).symm.subset hr
  rcases List.mem_cons.mp hmem with rfl | hr'
  · exact le_refl _
  · have := sortDesc_sorted l
    rw [h, TsSorted, List.pairwise_cons] at this
    exact this.1 r hr'

/-- Two sorted permutations of a list with pairwise-distinct timestamps are
equal: the sort result is determined by the record multiset alone. -/
theorem tsSorted_perm_nodup_eq :
    ∀ {s1 s2 : List Conflict}, List.Perm s1 s2 → TsSorted s1 → TsSorted s2 →
      (s1.map (fun c => c.timestamp)).Nodup → s1 = s2 := by
  intro s1
  induction s1 with
  | nil => intro s2 hp _ _ _; exact (hp.nil_eq).symm ▸ rfl
  | cons a t1 ih =>
    intro s2 hp hs1 hs2 hnd
    match s2 with
    | [] => exact absurd hp.symm.nil_eq (by simp)
    | b :: t2 =>
      rw [TsSorted, List.pairwise_cons] at hs1 hs2
      have hab : a = b := by
        have hbmem : b ∈ a :: t1 := hp.symm.subset (List.mem_cons_self b t2)
        have hamem : a ∈ b :: t2 := hp.subset (List.mem_cons_self a t1)
        rcases List.mem_cons.mp hbmem with rfl | hb'
        · rfl
        · rcases List.mem_cons.mp hamem with rfl | ha'
          · rfl
          · have h1 : b.timestamp ≤ a.timestamp := hs1.1 b hb'
            have h2 : a.timestamp ≤ b.timestamp := hs2.1 a ha'
            have hts : a.timestamp = b.timestamp := le_antisymm h2 h1
            rw [List.map_cons, List.nodup_cons] at hnd
            exact absurd (hts ▸ List.mem_map_of_mem (fun c => c.timestamp) hb') hnd.1
      subst hab
      have ht : List.Perm t1 t2 := hp.cons_inv
      rw [List.map_cons, List.nodup_cons] at hnd
      exact congrArg (a :: ·) (ih ht hs1.2 hs2.2 hnd.2)

/-! ## Lemmas about the grouping dict -/

theorem groupFor_cons (p : String × List Conflict) (rest : List (String × List Conflict))
    (k : String) :
    groupFor (p :: rest) k = if p.1 = k then p.2 else groupFor rest k := by
  by_cases h : p.1 = k
  · simp [groupFor, List.find?_cons_of_pos, h]
  · rw [groupFor, List.find?_cons_of_neg _ (by simpa using h), if_neg h, groupFor]

/-- Updating the entries keyed `c.file_path` leaves keys untouched and
appends `c` to the (first) entry with that key, as seen through `groupFor`. -/
theorem groupFor_mapUpdate (acc : List (String × List Conflict)) (c : Conflict) (k : String) :
    groupFor (acc.map (fun p => if p.1 = c.file_path then (p.1, p.2 ++ [c]) else p)) k =
      groupFor acc k ++
        (if c.file_path = k then
          (if acc.any (fun p => p.1 == k) then [c] else []) else []) := by
  induction acc with
  | nil => simp [groupFor]
  | cons p rest ih =>
    rw [List.map_cons]
    by_cases h1 : p.1 = c.file_path
    · rw [if_pos h1]
      by_cases h2 : p.1 = k
      · rw [groupFor_cons, if_pos h2, groupFor_cons, if_pos h2]
        have hk : c.file_path = k := h1 ▸ h2
        rw [if_pos hk, List.any_cons, if_pos (by simp [h2])]
      · rw [groupFor_cons]
        simp only [if_neg h2]
        rw [groupFor_cons, if_neg h2, ih, List.any_cons]
        have hb : (p.1 == k) = false := by simpa using h2
        rw [hb, Bool.false_or]
    · rw [if_neg h1]
      by_cases h2 : p.1 = k
      · rw [groupFor_cons, if_pos h2, groupFor_cons, if_pos h2]
        have hk : ¬ c.file_path = k := fun hk => h1 (hk ▸ h2 ▸ rfl)
        rw [if_neg hk, List.append_nil]
      · rw [groupFor_cons, if_neg h2, groupFor_cons, if_neg h2, ih, List.any_cons]
        have hb : (p.1 == k) = false := by simpa using h2
        rw [hb, Bool.false_or]

theorem groupFor_insertRecord (acc : List (String × List Conflict)) (c : Conflict)
    (k : String) :
    groupFor (insertRecord acc c) k =
      groupFor acc k ++ (if c.file_path = k then [c] else []) := by
  by_cases hc : acc.any (fun p => p.1 == c.file_path)
  · rw [insertRecord, if_pos hc, groupFor_mapUpdate]
    by_cases hk : c.file_path = k
    · rw [if_pos hk, if_pos hk, if_pos (hk ▸ hc)]
    · rw [if_neg hk, if_neg hk]
  · rw [insertRecord, if_neg hc, groupFor]
    rw [List.find?_append]
    by_cases hk : c.file_path = k
    · have hnone : acc.find? (fun p => p.1 == k) = none := by
        rw [List.find?_eq_none]
        intro p hp hbe
        exact hc (List.any_eq_true.mpr ⟨p, hp, by simpa [hk] using hbe⟩)
      rw [hnone, if_pos hk, groupFor, hnone]
      simp [List.find?_cons_of_pos, hk]
    · by_cases hfind : (acc.find? (fun p => p.1 == k)).isSome
      · rcases Option.isSome_iff_exists.mp hfind with ⟨p, hp⟩
        rw [hp, Option.or_some]
        rw [groupFor, hp, if_neg hk, List.append_nil]
      · have hnone : acc.find? (fun p => p.1 == k) = none :=
          Option.not_isSome_iff_eq_none.mp hfind
        rw [hnone, groupFor, hnone, if_neg hk, List.append_nil]
        simp [List.find?_cons_of_neg, hk]

theorem groupByPath_append_single (xs : List Conflict) (c : Conflict) :
    groupByPath (xs ++ [c]) = insertRecord (groupByPath xs) c := by
  rw [groupByPath, List.foldl_append, List.foldl_cons, List.foldl_nil, groupByPath]

/-- The member list stored under key `k` is exactly the records with that
`file_path`, in scan order. -/
theorem groupFor_groupByPath (l : List Conflict) (k : String) :
    groupFor (groupByPath l) k = l.filter (fun c => c.file_path == k) := by
  induction l using List.reverseRecOn with
  | nil => simp [groupByPath, groupFor]
  | append_singleton xs c ih =>
    rw [groupByPath_append_single, groupFor_insertRecord, ih, List.filter_append]
    by_cases hk : c.file_path = k
    · simp [hk]
    · simp [List.filter_cons, hk]

theorem keys_insertRecord (acc : List (String × List Conflict)) (c : Conflict) :
    (insertRecord acc c).map Prod.fst =
      if c.file_path ∈ acc.map Prod.fst then acc.map Prod.fst
      else acc.map Prod.fst ++ [c.file_path] := by
  by_cases hc : acc.any (fun p => p.1 == c.file_path)
  · have hmem : c.file_path ∈ acc.map Prod.fst := by
      rcases List.any_eq_true.mp hc with ⟨p, hp, hbe⟩
      exact List.mem_map.mpr ⟨p, hp, by simpa using hbe⟩
    rw [insertRecord, if_pos hc, if_pos hmem, List.map_map]
    apply List.map_congr_left
    intro p _
    by_cases h : p.1 = c.file_path <;> simp [h]
  · have hmem : c.file_path ∉ acc.map Prod.fst := by
      intro hm
      rcases List.mem_map.mp hm with ⟨p, hp, hfst⟩
      exact hc (List.any_eq_true.mpr ⟨p, hp, beq_iff_eq.mpr hfst⟩)
    rw [insertRecord, if_neg hc, if_neg hmem, List.map_append, List.map_cons, List.map_nil]

/-- The grouping dict's keys are the `file_path`s in first-seen order. -/
theorem keys_groupByPath (l : List Conflict) :
    (groupByPath l).map Prod.fst = firstSeenKeys l := by
  suffices h : ∀ acc : List (String × List Conflict),
      (l.foldl insertRecord acc).map Prod.fst =
        l.foldl (fun ks c => if c.file_path ∈ ks then ks else ks ++ [c.file_path])
          (acc.map Prod.fst) by
    simpa using h []
  induction l with
  | nil => intro acc; rfl
  | cons c rest ih =>
    intro acc
    rw [List.foldl_cons, List.foldl_cons, ih (insertRecord acc c), keys_insertRecord]

theorem nodup_firstSeenKeys (l : List Conflict) : (firstSeenKeys l).Nodup := by
  suffices h : ∀ ks : List String, ks.Nodup →
      (l.foldl (fun ks c => if c.file_path ∈ ks then ks else ks ++ [c.file_path]) ks).Nodup by
    exact h [] List.nodup_nil
  induction l with
  | nil => intro ks hks; exact hks
  | cons c rest ih =>
    intro ks hks
    rw [List.foldl_cons]
    by_cases hm : c.file_path ∈ ks
    · rw [if_pos hm]; exact ih ks hks
    · rw [if_neg hm]
      exact ih _ (by simp [List.nodup_append, hks, hm])

theorem nodup_keys_groupByPath (l : List Conflict) :
    ((groupByPath l).map Prod.fst).Nodup :=
  keys_groupByPath l ▸ nodup_firstSeenKeys l

theorem mem_firstSeenKeys (l : List Conflict) (k : String) :
    k ∈ firstSeenKeys l ↔ ∃ c ∈ l, c.file_path = k := by
  suffices h : ∀ ks : List String,
      (k ∈ l.foldl (fun ks c => if c.file_path ∈ ks then ks else ks ++ [c.file_path]) ks ↔
        k ∈ ks ∨ ∃ c ∈ l, c.file_path = k) by
    simpa using h []
  induction l with
  | nil => intro ks; simp
  | cons c rest ih =>
    intro ks
    rw [List.foldl_cons]
    by_cases hm : c.file_path ∈ ks
    · rw [if_pos hm, ih ks]
      constructor
      · rintro (h | h)
        · exact Or.inl h
        · exact Or.inr (by rcases h with ⟨r, hr, he⟩; exact ⟨r, List.mem_cons_of_mem c hr, he⟩)
      · rintro (h | ⟨r, hr, he⟩)
        · exact Or.inl h
        · rcases List.mem_cons.mp hr with rfl | hr'
          · exact Or.inl (he ▸ hm)
          · exact Or.inr ⟨r, hr', he⟩
    · rw [if_neg hm, ih (ks ++ [c.file_path])]
      rw [List.mem_append, List.mem_singleton]
      constructor
      · rintro ((h | h) | ⟨r, hr, he⟩)
        · exact Or.inl h
        · exact Or.inr ⟨c, List.mem_cons_self c rest, h.symm⟩
        · exact Or.inr ⟨r, List.mem_cons_of_mem c hr, he⟩
      · rintro (h | ⟨r, hr, he⟩)
        · exact Or.inl (Or.inl h)
        · rcases List.mem_cons.mp hr with rfl | hr'
          · exact Or.inl (Or.inr he.symm)
          · exact Or.inr ⟨r, hr', he⟩

/-- With duplicate-free keys, a member of the dict is what `find?` returns
for its key. -/
theorem find_self_of_nodup_keys (G : List (String × List Conflict))
    (hnd : (G.map Prod.fst).Nodup) (g : String × List Conflict) (hg : g ∈ G) :
    G.find? (fun p => p.1 == g.1) = some g := by
  induction G with
  | nil => cases hg
  | cons p rest ih =>
    rw [List.map_cons, List.nodup_cons] at hnd
    rcases List.mem_cons.mp hg with rfl | hg'
    · exact List.find?_cons_of_pos _ (by simp)
    · have hne : ¬ p.1 = g.1 := by
        intro h
        exact hnd.1 (h ▸ List.mem_map.mpr ⟨g, hg', rfl⟩)
      rw [List.find?_cons_of_neg _ (by simpa using hne)]
      exact ih hnd.2 hg'

/-- Membership of a record in a group of the dict: exactly the scanned
records whose `file_path` equals the group key. -/
theorem mem_group_iff (l : List Conflict) (g : String × List Conflict)
    (hg : g ∈ groupByPath l) (c : Conflict) :
    c ∈ g.2 ↔ c ∈ l ∧ c.file_path = g.1 := by
  have h1 : groupFor (groupByPath l) g.1 = g.2 := by
    rw [groupFor, find_self_of_nodup_keys _ (nodup_keys_groupByPath l) g hg]
  rw [← h1, groupFor_groupByPath]
  simp [List.mem_filter]

theorem group_ne_nil (l : List Conflict) (g : String × List Conflict)
    (hg : g ∈ groupByPath l) : g.2 ≠ [] := by
  have hkey : g.1 ∈ (groupByPath l).map Prod.fst := List.mem_map.mpr ⟨g, hg, rfl⟩
  rw [keys_groupByPath, mem_firstSeenKeys] at hkey
  rcases hkey with ⟨c, hc, he⟩
  exact List.ne_nil_of_mem ((mem_group_iff l g hg c).mpr ⟨hc, he⟩)

/-- If no entry is keyed `c.file_path`, the update map is the identity. -/
theorem mapUpdate_id (acc : List (String × List Conflict)) (c : Conflict)
    (h : c.file_path ∉ acc.map Prod.fst) :
    acc.map (fun p => if p.1 = c.file_path then (p.1, p.2 ++ [c]) else p) = acc := by
  induction acc with
  | nil => rfl
  | cons p rest ih =>
    rw [List.map_cons] at *
    have hne : ¬ p.1 = c.file_path := by
      intro he
      exact h (List.mem_cons.mpr (Or.inl he.symm))
    rw [if_neg hne, ih (fun hm => h (List.mem_cons_of_mem _ hm))]

theorem flatMap_mapUpdate_perm (acc : List (String × List Conflict)) (c : Conflict)
    (hnd : (acc.map Prod.fst).Nodup) (hc : acc.any (fun p => p.1 == c.file_path) = true) :
    List.Perm
      ((acc.map (fun p => if p.1 = c.file_path then (p.1, p.2 ++ [c]) else p)).flatMap
        (fun g => g.2))
      ((acc.flatMap (fun g => g.2)) ++ [c]) := by
  induction acc with
  | nil => simp at hc
  | cons p rest ih =>
    rw [List.map_cons] at *
    rw [List.nodup_cons] at hnd
    by_cases h1 : p.1 = c.file_path
    · rw [if_pos h1, List.flatMap_cons, List.flatMap_cons,
        mapUpdate_id rest c (h1 ▸ hnd.1)]
      rw [List.append_assoc, List.append_assoc]
      exact List.Perm.append_left p.2 List.perm_append_comm
    · rw [if_neg h1, List.flatMap_cons, List.flatMap_cons, List.append_assoc]
      have hc' : rest.any (fun p => p.1 == c.file_path) = true := by
        rcases List.any_eq_true.mp hc with ⟨q, hq, hbe⟩
        rcases List.mem_cons.mp hq with rfl | hq'
        · exact absurd (by simpa using hbe) h1
        · exact List.any_eq_true.mpr ⟨q, hq', hbe⟩
      exact List.Perm.append_left p.2 (ih hnd.2 hc')

theorem flatMap_insertRecord_perm (acc : List (String × List Conflict)) (c : Conflict)
    (hnd : (acc.map Prod.fst).Nodup) :
    List.Perm ((insertRecord acc c).flatMap (fun g => g.2))
      ((acc.flatMap (fun g => g.2)) ++ [c]) := by
  by_cases hc : acc.any (fun p => p.1 == c.file_path)
  · rw [insertRecord, if_pos hc]
    exact flatMap_mapUpdate_perm acc c hnd hc
  · rw [insertRecord, if_neg hc, List.flatMap_append]
    simp

/-- Every scanned record lands in the dict exactly once: flattening the
groups gives back the record list up to permutation. -/
theorem flatMap_groupByPath_perm (l : List Conflict) :
    List.Perm ((groupByPath l).flatMap (fun g => g.2)) l := by
  induction l using List.reverseRecOn with
  | nil => simp [groupByPath]
  | append_singleton xs c ih =>
    rw [groupByPath_append_single]
    exact (flatMap_insertRecord_perm (groupByPath xs) c (nodup_keys_groupByPath xs)).trans
      (ih.append_right [c])

/-! ## Lemmas about the planner -/

theorem planGroup_map_conflict (cfg : Config) (ots : String) (ms : List Conflict) :
    (planGroup cfg ots ms).map (fun a => a.conflict) = ms := by
  cases ms with
  | nil => rfl
  | cons newest older =>
    rw [planGroup, List.map_cons, List.map_map]
    have hco : ((fun a : ActionInfo => a.conflict) ∘
        fun c => (⟨c, loserAction cfg, ots⟩ : ActionInfo)) = id := by
      funext r; rfl
    rw [hco, List.map_id]

theorem groupsSorted_keys (l : List Conflict) :
    (groupsSorted l).map Prod.fst = firstSeenKeys l := by
  rw [groupsSorted, List.map_map, ← keys_groupByPath]
  rfl

/-- A dict entry's member list is the fiber of its key. -/
theorem groupFor_eq_of_mem (l : List Conflict) (g : String × List Conflict)
    (hg : g ∈ groupByPath l) :
    g.2 = l.filter (fun c => c.file_path == g.1) := by
  have h1 : groupFor (groupByPath l) g.1 = g.2 := by
    rw [groupFor, find_self_of_nodup_keys _ (nodup_keys_groupByPath l) g hg]
  rw [← h1, groupFor_groupByPath]

/-- The member list of a sorted group is the sorted fiber of its key. -/
theorem groupsSorted_members (l : List Conflict) (g : String × List Conflict)
    (hg : g ∈ groupsSorted l) :
    g.2 = sortDesc (l.filter (fun c => c.file_path == g.1)) := by
  rcases List.mem_map.mp hg with ⟨g0, hg0, hfg⟩
  have hfil := groupFor_eq_of_mem l g0 hg0
  subst hfg
  simpa using congrArg sortDesc hfil

theorem groupsSorted_member_key (l : List Conflict) (g : String × List Conflict)
    (hg : g ∈ groupsSorted l) (r : Conflict) (hr : r ∈ g.2) : r.file_path = g.1 := by
  rw [groupsSorted_members l g hg] at hr
  have := (sortDesc_perm _).subset hr
  simpa using (List.mem_filter.mp this).2

theorem mem_groupsSorted_member (l : List Conflict) (g : String × List Conflict)
    (hg : g ∈ groupsSorted l) (r : Conflict) :
    r ∈ g.2 ↔ r ∈ l ∧ r.file_path = g.1 := by
  rw [groupsSorted_members l g hg, (sortDesc_perm _).mem_iff]
  simp [List.mem_filter]

theorem flatMap_sortDesc_perm (G : List (String × List Conflict)) :
    List.Perm (G.flatMap (fun g => sortDesc g.2)) (G.flatMap (fun g => g.2)) := by
  induction G with
  | nil => simp
  | cons g rest ih =>
    rw [List.flatMap_cons, List.flatMap_cons]
    exact (sortDesc_perm g.2).append ih

/-- The `actions` list mentions every scanned record exactly once. -/
theorem actions_conflicts_perm (cfg : Config) (fs : Fs) (l : List Conflict) :
    List.Perm ((actionsOf cfg fs l).map (fun a => a.conflict)) l := by
  rw [actionsOf, List.map_flatMap]
  have hfun : (fun g : String × List Conflict =>
      (planGroup cfg (origTsDisplay fs g.1) g.2).map (fun a => a.conflict)) =
      (fun g : String × List Conflict => g.2) := by
    funext g
    exact planGroup_map_conflict cfg (origTsDisplay fs g.1) g.2
  rw [hfun, groupsSorted, List.flatMap_map]
  exact (flatMap_sortDesc_perm (groupByPath l)).trans (flatMap_groupByPath_perm l)

/-! ## Locating a record's action entry -/

theorem find_map_loser (cfg : Config) (ots : String) (ms : List Conflict) (c : Conflict)
    (hc : c ∈ ms) :
    ((ms.map (fun r => (⟨r, loserAction cfg, ots⟩ : ActionInfo))).find?
      (fun a => a.conflict == c)) = some ⟨c, loserAction cfg, ots⟩ := by
  induction ms with
  | nil => cases hc
  | cons m rest ih =>
    rw [List.map_cons]
    by_cases h : m = c
    · subst h
      exact List.find?_cons_of_pos _ (by simp)
    · rw [List.find?_cons_of_neg _ (by simpa using h)]
      rcases List.mem_cons.mp hc with rfl | h'
      · exact absurd rfl h
      · exact ih h'

theorem find_planGroup_cons (cfg : Config) (ots : String) (newest : Conflict)
    (older : List Conflict) (c : Conflict) (hc : c ∈ newest :: older) :
    ((planGroup cfg ots (newest :: older)).find? (fun a => a.conflict == c)) =
      some (if newest = c then ⟨newest, Dispo.keep, ots⟩ else ⟨c, loserAction cfg, ots⟩) := by
  rw [planGroup]
  by_cases h : newest = c
  · rw [List.find?_cons_of_pos _ (by simp [h]), if_pos h]
  · rw [List.find?_cons_of_neg _ (by simpa using h), if_neg h]
    rcases List.mem_cons.mp hc with rfl | h'
    · exact absurd rfl h
    · exact find_map_loser cfg ots older c h'

theorem find_planGroup_none (cfg : Config) (ots : String) (ms : List Conflict)
    (c : Conflict) (hc : c ∉ ms) :
    ((planGroup cfg ots ms).find? (fun a => a.conflict == c)) = none := by
  rw [List.find?_eq_none]
  intro a ha
  have hmem : a.conflict ∈ ms := by
    have h := planGroup_map_conflict cfg ots ms
    exact h ▸ List.mem_map_of_mem (fun a => a.conflict) ha
  simp only [beq_iff_eq]
  intro he
  exact hc (he ▸ hmem)

theorem find_unique {α : Type} (p : α → Bool) (l : List α) (a : α) (ha : a ∈ l)
    (hp : p a = true) (huniq : ∀ b ∈ l, p b = true → b = a) : l.find? p = some a := by
  induction l with
  | nil => cases ha
  | cons x rest ih =>
    by_cases hx : p x
    · rw [List.find?_cons_of_pos _ hx, huniq x (List.mem_cons_self x rest) hx]
    · rw [List.find?_cons_of_neg _ hx]
      rcases List.mem_cons.mp ha with rfl | ha'
      · exact absurd hp hx
      · exact ih ha' (fun b hb hpb => huniq b (List.mem_cons_of_mem x hb) hpb)

/-- Searching the flattened action list for a record's entry reduces to
searching the plan of the (first) group that contains the record. -/
theorem find_flatMap_plan (cfg : Config) (fsd : String → String) (c : Conflict)
    (gs : List (String × List Conflict))
    (hkey : ∀ g ∈ gs, ∀ r ∈ g.2, r.file_path = g.1) :
    ((gs.flatMap (fun g => planGroup cfg (fsd g.1) g.2)).find? (fun a => a.conflict == c)) =
      ((gs.find? (fun g => decide (c ∈ g.2))).bind
        (fun g => (planGroup cfg (fsd g.1) g.2).find? (fun a => a.conflict == c))) := by
  induction gs with
  | nil => rfl
  | cons g rest ih =>
    rw [List.flatMap_cons, List.find?_append]
    by_cases hc : c ∈ g.2
    · obtain ⟨newest, older, hms⟩ : ∃ m ms, g.2 = m :: ms := by
        cases hgg : g.2 with
        | nil => rw [hgg] at hc; cases hc
        | cons m ms => exact ⟨m, ms, rfl⟩
      rw [List.find?_cons_of_pos _ (by simp [hc]), Option.some_bind]
      rw [hms] at hc ⊢
      rw [find_planGroup_cons cfg (fsd g.1) newest older c hc, Option.or_some]
    · rw [find_planGroup_none cfg (fsd g.1) g.2 c hc, Option.none_or,
        List.find?_cons_of_neg _ (by simp [hc])]
      exact ih (fun g' hg' => hkey g' (List.mem_cons_of_mem g hg'))

theorem dispositionOf_none (cfg : Config) (fs : Fs) (l : List Conflict) (c : Conflict)
    (hc : c ∉ l) : dispositionOf cfg fs l c = none := by
  rw [dispositionOf]
  have hnone : (actionsOf cfg fs l).find? (fun a => a.conflict == c) = none := by
    rw [List.find?_eq_none]
    intro a ha
    have hmem : a.conflict ∈ l :=
      (actions_conflicts_perm cfg fs l).subset
        (List.mem_map_of_mem (fun a => a.conflict) ha)
    simp only [beq_iff_eq]
    intro he
    exact hc (he ▸ hmem)
  rw [hnone]
  rfl

/-- A scanned record's disposition is `keep` exactly when it heads the sorted
fiber of its own original path, and the configured loser action otherwise. -/
theorem dispositionOf_char (cfg : Config) (fs : Fs) (l : List Conflict) (c : Conflict)
    (hc : c ∈ l) :
    dispositionOf cfg fs l c =
      some (if (sortDesc (l.filter (fun r => r.file_path == c.file_path))).head? = some c
            then Dispo.keep else loserAction cfg) := by
  have hkey : ∀ g ∈ groupsSorted l, ∀ r ∈ g.2, r.file_path = g.1 :=
    fun g hg r hr => groupsSorted_member_key l g hg r hr
  rw [dispositionOf, actionsOf, find_flatMap_plan cfg _ c (groupsSorted l) hkey]
  set gc : String × List Conflict :=
    (c.file_path, sortDesc (l.filter (fun r => r.file_path == c.file_path))) with hgc
  have hgcmem : gc ∈ groupsSorted l := by
    have hkmem : c.file_path ∈ (groupByPath l).map Prod.fst := by
      rw [keys_groupByPath, mem_firstSeenKeys]
      exact ⟨c, hc, rfl⟩
    rcases List.mem_map.mp hkmem with ⟨g0, hg0, hfst⟩
    have hfil := groupFor_eq_of_mem l g0 hg0
    have : (g0.1, sortDesc g0.2) ∈ groupsSorted l := List.mem_map_of_mem _ hg0
    rw [hfil, hfst] at this
    exact this
  have hcgc : c ∈ gc.2 := by
    rw [hgc]
    exact (sortDesc_perm _).symm.subset (List.mem_filter.mpr ⟨hc, by simp⟩)
  have hfind : (groupsSorted l).find? (fun g => decide (c ∈ g.2)) = some gc := by
    apply find_unique _ _ gc hgcmem (by simpa using hcgc)
    intro g' hg' hp'
    have hcg' : c ∈ g'.2 := by simpa using hp'
    have hk' : g'.1 = c.file_path := ((mem_groupsSorted_member l g' hg' c).mp hcg').2.symm
    have hm' : g'.2 = sortDesc (l.filter (fun r => r.file_path == g'.1)) :=
      groupsSorted_members l g' hg'
    have : g' = (g'.1, g'.2) := rfl
    rw [this, hm', hk', hgc]
  rw [hfind, Option.some_bind]
  obtain ⟨newest, older, hms⟩ : ∃ m ms, gc.2 = m :: ms := by
    cases hgg : gc.2 with
    | nil => rw [hgg] at hcgc; cases hcgc
    | cons m ms => exact ⟨m, ms, rfl⟩
  have hc2 : c ∈ newest :: older := hms ▸ hcgc
  have hgc2 : gc.2 = newest :: older := hms
  rw [hgc2, find_planGroup_cons cfg _ newest older c hc2]
  have hhead : (sortDesc (l.filter (fun r => r.file_path == c.file_path))).head? = some newest := by
    have : gc.2.head? = some newest := by rw [hgc2]; rfl
    simpa [hgc] using this
  rw [hhead]
  by_cases h : newest = c
  · rw [if_pos h, if_pos (by rw [h])]
    rfl
  · rw [if_neg h, if_neg (by simpa using h)]
    rfl

/-! ## Lemmas about the executor -/

/-- The printed rows are one per action, in plan order, in both modes. -/
theorem execute_rows (dry : Bool) (bd : Option String) (fnW : Nat) :
    ∀ (plans : List ActionInfo) (fs : Fs),
      (execute dry bd fnW plans fs).1 = plans.map (rowOf fnW) := by
  intro plans
  induction plans with
  | nil => intro fs; rfl
  | cons a rest ih =>
    intro fs
    rw [execute, List.map_cons]
    exact congrArg (rowOf fnW a :: ·) (ih _)

/-- A dry run leaves the filesystem untouched. -/
theorem execute_dry_fs (bd : Option String) (fnW : Nat) :
    ∀ (plans : List ActionInfo) (fs : Fs),
      (execute true bd fnW plans fs).2.2 = fs := by
  intro plans
  induction plans with
  | nil => intro fs; rfl
  | cons a rest ih => intro fs; rw [execute]; exact ih fs

/-- A dry run's event trace consists of the row prints only. -/
theorem execute_dry_events (bd : Option String) (fnW : Nat) :
    ∀ (plans : List ActionInfo) (fs : Fs),
      (execute true bd fnW plans fs).2.1 =
        plans.map (fun a => Event.printRow a.conflict.file_path a.conflict.conflict_path) := by
  intro plans
  induction plans with
  | nil => intro fs; rfl
  | cons a rest ih =>
    intro fs
    rw [execute, List.map_cons]
    simp only [if_pos rfl]
    exact congrArg (_ :: ·) (ih fs)

/-- Every filesystem call emitted for an action carries that action's
conflict path. -/
theorem performAction_events (bd : Option String) (a : ActionInfo) (fs : Fs) :
    ∀ e ∈ (performAction bd a fs).1,
      ∃ k g, e = Event.fsMut k g a.conflict.conflict_path := by
  intro e he
  rcases a with ⟨conf, act, ots⟩
  cases act
  case keep =>
    simp only [performAction] at he
    split at he
    · rcases List.mem_singleton.mp he with rfl
      exact ⟨_, _, rfl⟩
    · cases he
  case delete =>
    simp only [performAction] at he
    split at he
    · rcases List.mem_singleton.mp he with rfl
      exact ⟨_, _, rfl⟩
    · cases he
  case backup =>
    simp only [performAction] at he
    split at he
    · cases bd with
      | none => cases he
      | some b =>
        simp only [] at he
        by_cases hb : fsExists fs b
        · rw [if_pos hb] at he
          simp at he
          exact ⟨_, _, by rw [he]⟩
        · rw [if_neg hb] at he
          rcases List.mem_append.mp he with h1 | h2
          · rcases List.mem_singleton.mp h1 with rfl
            exact ⟨_, _, rfl⟩
          · rcases List.mem_singleton.mp h2 with rfl
            exact ⟨_, _, rfl⟩
    · cases he

theorem rowsPrecedeOwnMut_append_muts (l : List Event) (seen : List String) :
    ∀ evs1 : List Event,
      (∀ e ∈ evs1, ∃ k g cp, e = Event.fsMut k g cp ∧ seen.contains cp = true) →
      rowsPrecedeOwnMut (evs1 ++ l) seen = rowsPrecedeOwnMut l seen := by
  intro evs1
  induction evs1 with
  | nil => intro _; rfl
  | cons e rest ih =>
    intro h
    rcases h e (List.mem_cons_self e rest) with ⟨k, g, cp, rfl, hcp⟩
    rw [List.cons_append, rowsPrecedeOwnMut, hcp, Bool.true_and]
    exact ih (fun e' he' => h e' (List.mem_cons_of_mem _ he'))

/-- In every mode, a conflict file is only touched after its own report row
was printed. -/
theorem execute_rowsPrecedeOwnMut (dry : Bool) (bd : Option String) (fnW : Nat) :
    ∀ (plans : List ActionInfo) (fs : Fs) (seen : List String),
      rowsPrecedeOwnMut (execute dry bd fnW plans fs).2.1 seen = true := by
  intro plans
  induction plans with
  | nil => intro fs seen; rfl
  | cons a rest ih =>
    intro fs seen
    simp only [execute]
    simp only [rowsPrecedeOwnMut, List.append_eq]
    rw [rowsPrecedeOwnMut_append_muts _ _ _ ?side]
    case side =>
      intro e he
      by_cases hd : dry
      · rw [if_pos hd] at he
        cases he
      · rw [if_neg hd] at he
        rcases performAction_events bd a fs e he with ⟨k, g, rfl⟩
        exact ⟨k, g, a.conflict.conflict_path, rfl, by simp⟩
    exact ih _ _

/-! ## Shared helper: skipped files are transparent to the scan -/

theorem scanFiles_skip_transparent (root name : String) (size : Nat)
    (hskip : processFile root name size = ScanOutcome.skip) :
    ∀ pre post : List (String × Nat),
      scanFiles root (pre ++ (name, size) :: post) = scanFiles root (pre ++ post) := by
  intro pre post
  induction pre with
  | nil =>
    simp only [List.nil_append]
    rw [scanFiles, hskip]
  | cons x xs ih =>
    rcases x with ⟨n, sz⟩
    simp only [List.cons_append]
    cases hp : processFile root n sz with
    | err => simp only [scanFiles, hp]
    | skip =>
      simp only [scanFiles, hp]
      exact ih
    | record c =>
      simp only [scanFiles, hp]
      rw [ih]

/-! ## Claims -/

/-- C1: in every sorted conflict group, the member at index 0 has the
numerically largest embedded timestamp of the group and is planned `keep`,
and every member at index at least 1 is planned `backup` when a backup
directory is configured and `delete` otherwise. -/
theorem c1_keep_newest_losers_disposed (cfg : Config) (fs : Fs) (l : List Conflict)
    (g : String × List Conflict) (hg : g ∈ groupsSorted l) :
    ∃ c cs, g.2 = c :: cs ∧
      planGroup cfg (origTsDisplay fs g.1) g.2 =
        (⟨c, Dispo.keep, origTsDisplay fs g.1⟩ : ActionInfo) ::
          cs.map (fun r => (⟨r, loserAction cfg, origTsDisplay fs g.1⟩ : ActionInfo)) ∧
      (∀ r ∈ g.2, r.timestamp ≤ c.timestamp) ∧
      loserAction cfg = (if backupTruthy cfg.backup_dir then Dispo.backup else Dispo.delete) := by
  have hm := groupsSorted_members l g hg
  rcases List.mem_map.mp hg with ⟨g0, hg0, hfg⟩
  have hne0 : g0.2 ≠ [] := group_ne_nil l g0 hg0
  have hne : g.2 ≠ [] := by
    intro hnil
    apply hne0
    have h2 : g.2 = sortDesc g0.2 := by rw [← hfg]
    rw [hnil] at h2
    exact ((h2 ▸ sortDesc_perm g0.2) : List.Perm [] g0.2).nil_eq.symm
  obtain ⟨c, cs, hcons⟩ : ∃ c cs, g.2 = c :: cs := by
    cases hgg : g.2 with
    | nil => exact absurd hgg hne
    | cons c cs => exact ⟨c, cs, rfl⟩
  refine ⟨c, cs, hcons, by rw [hcons]; rfl, ?_, rfl⟩
  intro r hr
  have hsort : sortDesc (l.filter (fun c => c.file_path == g.1)) = c :: cs := by
    rw [← hm, hcons]
  refine sortDesc_head_max hsort r ?_
  have : r ∈ sortDesc (l.filter (fun c => c.file_path == g.1)) := by
    rw [hsort, ← hcons]; exact hr
  exact (sortDesc_perm _).subset this

/-- C1 witness: a concrete two-member group with no backup directory; the
newest record heads the group and the older one is deleted. -/
theorem c1_keep_newest_losers_disposed_witness :
    (("d/f", [(⟨"d/b", "d/f", 20240105090000⟩ : Conflict),
              ⟨"d/a", "d/f", 20240101120000⟩]) ∈
        groupsSorted [(⟨"d/a", "d/f", 20240101120000⟩ : Conflict),
                      ⟨"d/b", "d/f", 20240105090000⟩]) ∧
    (∃ c cs,
      (("d/f", [(⟨"d/b", "d/f", 20240105090000⟩ : Conflict),
                ⟨"d/a", "d/f", 20240101120000⟩]) :
          String × List Conflict).2 = c :: cs ∧
      planGroup ⟨false, none⟩ (origTsDisplay ⟨[], [], []⟩ "d/f")
          (("d/f", [(⟨"d/b", "d/f", 20240105090000⟩ : Conflict),
                    ⟨"d/a", "d/f", 20240101120000⟩]) :
              String × List Conflict).2 =
        (⟨c, Dispo.keep, origTsDisplay ⟨[], [], []⟩ "d/f"⟩ : ActionInfo) ::
          cs.map (fun r =>
            (⟨r, loserAction ⟨false, none⟩, origTsDisplay ⟨[], [], []⟩ "d/f"⟩ : ActionInfo)) ∧
      (∀ r ∈ (("d/f", [(⟨"d/b", "d/f", 20240105090000⟩ : Conflict),
                       ⟨"d/a", "d/f", 20240101120000⟩]) :
          String × List Conflict).2, r.timestamp ≤ c.timestamp) ∧
      loserAction ⟨false, none⟩ =
        (if backupTruthy (⟨false, none⟩ : Config).backup_dir
         then Dispo.backup else Dispo.delete)) :=
  ⟨by decide,
   c1_keep_newest_losers_disposed ⟨false, none⟩ ⟨[], [], []⟩
     [⟨"d/a", "d/f", 20240101120000⟩, ⟨"d/b", "d/f", 20240105090000⟩]
     ("d/f", [⟨"d/b", "d/f", 20240105090000⟩, ⟨"d/a", "d/f", 20240101120000⟩])
     (by decide)⟩

/-- C2: records with the same reconstructed original path land in exactly one
group (keys are duplicate-free, membership in a group is exactly sharing its
key, every record is in some group), and the action plans cover every record
exactly once, whatever the scan order was. -/
theorem c2_grouping_partition (cfg : Config) (fs : Fs) (l : List Conflict) :
    ((groupByPath l).map Prod.fst).Nodup ∧
    (∀ g ∈ groupByPath l, ∀ c : Conflict, c ∈ g.2 ↔ c ∈ l ∧ c.file_path = g.1) ∧
    (∀ c ∈ l, ∃ g ∈ groupByPath l, c ∈ g.2) ∧
    List.Perm ((actionsOf cfg fs l).map (fun a => a.conflict)) l := by
  refine ⟨nodup_keys_groupByPath l, fun g hg c => mem_group_iff l g hg c, ?_,
    actions_conflicts_perm cfg fs l⟩
  intro c hc
  have hk : c.file_path ∈ (groupByPath l).map Prod.fst := by
    rw [keys_groupByPath, mem_firstSeenKeys]
    exact ⟨c, hc, rfl⟩
  rcases List.mem_map.mp hk with ⟨g, hg, hfst⟩
  exact ⟨g, hg, (mem_group_iff l g hg c).mpr ⟨hc, hfst.symm⟩⟩

/-- C2 witness: two same-path records scanned in either order form one group
covering both, and the plans mention each exactly once. -/
theorem c2_grouping_partition_witness :
    (("d/f", [(⟨"d/a", "d/f", 20240101120000⟩ : Conflict),
              ⟨"d/b", "d/f", 20240105090000⟩]) ∈
        groupByPath [(⟨"d/a", "d/f", 20240101120000⟩ : Conflict),
                     ⟨"d/b", "d/f", 20240105090000⟩]) ∧
    ((⟨"d/a", "d/f", 20240101120000⟩ : Conflict) ∈
        (("d/f", [(⟨"d/a", "d/f", 20240101120000⟩ : Conflict),
                  ⟨"d/b", "d/f", 20240105090000⟩]) : String × List Conflict).2 ↔
      (⟨"d/a", "d/f", 20240101120000⟩ : Conflict) ∈
          [(⟨"d/a", "d/f", 20240101120000⟩ : Conflict), ⟨"d/b", "d/f", 20240105090000⟩] ∧
        (⟨"d/a", "d/f", 20240101120000⟩ : Conflict).file_path = "d/f") ∧
    List.Perm
      ((actionsOf ⟨false, none⟩ ⟨[], [], []⟩
          [(⟨"d/a", "d/f", 20240101120000⟩ : Conflict),
           ⟨"d/b", "d/f", 20240105090000⟩]).map (fun a => a.conflict))
      [(⟨"d/a", "d/f", 20240101120000⟩ : Conflict), ⟨"d/b", "d/f", 20240105090000⟩] :=
  ⟨by decide,
   (c2_grouping_partition ⟨false, none⟩ ⟨[], [], []⟩
       [⟨"d/a", "d/f", 20240101120000⟩, ⟨"d/b", "d/f", 20240105090000⟩]).2.1
     ("d/f", [⟨"d/a", "d/f", 20240101120000⟩, ⟨"d/b", "d/f", 20240105090000⟩])
     (by decide) ⟨"d/a", "d/f", 20240101120000⟩,
   (c2_grouping_partition ⟨false, none⟩ ⟨[], [], []⟩
       [⟨"d/a", "d/f", 20240101120000⟩, ⟨"d/b", "d/f", 20240105090000⟩]).2.2.2⟩

/-- C3: evaluating the parser at the failing input: `file_name = file_name`
in the source is a no-op, so the trailing extension after the instance id is
dropped; `report.sync-conflict-20240101-120000-ABC.txt` reconstructs to
`report`, not `report.txt` (while a multi-dot base such as `notes.v2.txt`
does survive, because it sits wholly before the marker). -/
theorem c3_extension_dropped_eval :
    reconstructOriginal "report.sync-conflict-20240101-120000-ABC.txt" = "report" ∧
    processFile "d" "report.sync-conflict-20240101-120000-ABC.txt" 5 =
      ScanOutcome.record
        ⟨"d/report.sync-conflict-20240101-120000-ABC.txt", "d/report", 20240101120000⟩ ∧
    reconstructOriginal "notes.v2.txt.sync-conflict-20240101-120000-AB1.txt" =
      "notes.v2.txt" := by
  refine ⟨by decide, by decide, by decide⟩

/-- C4: counterexample — two records of the same group with equal timestamps:
which of them receives `keep` depends on the scan order, so disposition
assignment is not permutation-invariant as claimed. -/
theorem c4_order_dependence_cex :
    List.Perm
      [(⟨"d/a", "d/f", 20240101120000⟩ : Conflict), ⟨"d/b", "d/f", 20240101120000⟩]
      [(⟨"d/b", "d/f", 20240101120000⟩ : Conflict), ⟨"d/a", "d/f", 20240101120000⟩] ∧
    dispositionOf ⟨false, none⟩ ⟨[], [], []⟩
      [(⟨"d/a", "d/f", 20240101120000⟩ : Conflict), ⟨"d/b", "d/f", 20240101120000⟩]
      ⟨"d/a", "d/f", 20240101120000⟩ = some Dispo.keep ∧
    dispositionOf ⟨false, none⟩ ⟨[], [], []⟩
      [(⟨"d/b", "d/f", 20240101120000⟩ : Conflict), ⟨"d/a", "d/f", 20240101120000⟩]
      ⟨"d/a", "d/f", 20240101120000⟩ = some Dispo.delete :=
  ⟨List.Perm.swap _ _ _, by decide, by decide⟩

/-- C4 (amended): provided no two records of any one group share a timestamp,
the disposition assigned to each record is invariant under permutation of the
scan order. -/
theorem c4_perm_invariant_of_distinct_ts (cfg : Config) (fs : Fs)
    (l1 l2 : List Conflict) (hperm : List.Perm l1 l2)
    (hts : ∀ k : String,
      ((l1.filter (fun c => c.file_path == k)).map (fun c => c.timestamp)).Nodup)
    (c : Conflict) :
    dispositionOf cfg fs l1 c = dispositionOf cfg fs l2 c := by
  by_cases hc : c ∈ l1
  · rw [dispositionOf_char cfg fs l1 c hc, dispositionOf_char cfg fs l2 c (hperm.subset hc)]
    have hfp := hperm.filter (fun r => r.file_path == c.file_path)
    have hnod :
        ((sortDesc (l1.filter (fun r => r.file_path == c.file_path))).map
          (fun c => c.timestamp)).Nodup := by
      have hpm := ((sortDesc_perm
        (l1.filter (fun r => r.file_path == c.file_path))).map (fun c => c.timestamp))
      exact hpm.symm.nodup (hts c.file_path)
    have heq : sortDesc (l1.filter (fun r => r.file_path == c.file_path)) =
        sortDesc (l2.filter (fun r => r.file_path == c.file_path)) :=
      tsSorted_perm_nodup_eq
        (((sortDesc_perm _).trans hfp).trans (sortDesc_perm _).symm)
        (sortDesc_sorted _) (sortDesc_sorted _) hnod
    rw [heq]
  · rw [dispositionOf_none cfg fs l1 c hc,
      dispositionOf_none cfg fs l2 c (fun h => hc (hperm.symm.subset h))]

/-- C4 witness: with two distinct timestamps the same record is kept under
both scan orders. -/
theorem c4_perm_invariant_of_distinct_ts_witness :
    List.Perm
      [(⟨"d/a", "d/f", 20240101120000⟩ : Conflict), ⟨"d/b", "d/f", 20240105090000⟩]
      [(⟨"d/b", "d/f", 20240105090000⟩ : Conflict), ⟨"d/a", "d/f", 20240101120000⟩] ∧
    dispositionOf ⟨false, none⟩ ⟨[], [], []⟩
        [(⟨"d/a", "d/f", 20240101120000⟩ : Conflict), ⟨"d/b", "d/f", 20240105090000⟩]
        ⟨"d/a", "d/f", 20240101120000⟩ =
      dispositionOf ⟨false, none⟩ ⟨[], [], []⟩
        [(⟨"d/b", "d/f", 20240105090000⟩ : Conflict), ⟨"d/a", "d/f", 20240101120000⟩]
        ⟨"d/a", "d/f", 20240101120000⟩ := by
  have hts : ∀ k : String,
      (([(⟨"d/a", "d/f", 20240101120000⟩ : Conflict),
         ⟨"d/b", "d/f", 20240105090000⟩].filter
          (fun c => c.file_path == k)).map (fun c => c.timestamp)).Nodup := by
    intro k
    by_cases h : ("d/f" : String) = k
    · subst h
      decide
    · have hb : (("d/f" : String) == k) = false := beq_eq_false_iff_ne.mpr h
      simp [List.filter_cons, hb]
  exact ⟨List.Perm.swap _ _ _,
    c4_perm_invariant_of_distinct_ts ⟨false, none⟩ ⟨[], [], []⟩
      [⟨"d/a", "d/f", 20240101120000⟩, ⟨"d/b", "d/f", 20240105090000⟩]
      [⟨"d/b", "d/f", 20240105090000⟩, ⟨"d/a", "d/f", 20240101120000⟩]
      (List.Perm.swap _ _ _) hts ⟨"d/a", "d/f", 20240101120000⟩⟩

theorem actionsOf_dry_irrelevant (d1 d2 : Bool) (bd : Option String) (fs : Fs)
    (l : List Conflict) :
    actionsOf ⟨d1, bd⟩ fs l = actionsOf ⟨d2, bd⟩ fs l := by
  have h : planGroup (⟨d1, bd⟩ : Config) = planGroup (⟨d2, bd⟩ : Config) := by
    funext ots ms
    cases ms <;> rfl
  rw [actionsOf, actionsOf, h]

/-- C5: a dry run prints exactly the report that a live run on the same
initial state prints (byte for byte), emits no filesystem call (all events
are row prints), and leaves the filesystem state unchanged. -/
theorem c5_dry_run_frame (cfg : Config) (termW : Nat) (w : World) :
    (runMain ⟨true, cfg.backup_dir⟩ termW w).map (fun r => r.report) =
      (runMain ⟨false, cfg.backup_dir⟩ termW w).map (fun r => r.report) ∧
    (runMain ⟨true, cfg.backup_dir⟩ termW w).map (fun r => r.fs) =
      (runMain ⟨true, cfg.backup_dir⟩ termW w).map (fun _ => w.fs) ∧
    (runMain ⟨true, cfg.backup_dir⟩ termW w).map (fun r => r.events.all isPrintEvent) =
      (runMain ⟨true, cfg.backup_dir⟩ termW w).map (fun _ => true) := by
  cases hscan : scanTree (walkOf w) with
  | error e => simp [runMain, hscan, Except.map]
  | ok records =>
    refine ⟨?_, ?_, ?_⟩
    · simp only [runMain, hscan, Except.map]
      rw [execute_rows, execute_rows, actionsOf_dry_irrelevant true false]
    · simp only [runMain, hscan, Except.map]
      rw [execute_dry_fs]
    · simp only [runMain, hscan, Except.map]
      rw [execute_dry_events]
      simp [List.all_eq_true, isPrintEvent]

/-- C6: counterexample — `a.sync-conflict-20240230-120000-ABC` matches the
conflict-marker pattern and the timestamp digit pattern, but February 30 is
not a valid date, so `datetime.strptime` raises an uncaught `ValueError` and
the whole scan aborts instead of skipping the file and continuing. -/
theorem c6_malformed_timestamp_aborts_cex :
    reConflict "a.sync-conflict-20240230-120000-ABC" = true ∧
    processFile "d" "a.sync-conflict-20240230-120000-ABC" 5 = ScanOutcome.err ∧
    scanTree [("d", [("a.sync-conflict-20240230-120000-ABC", 5),
                     ("ok.sync-conflict-20240101-120000-DEF", 5)])] = Except.error () :=
  ⟨by decide, by decide, rfl⟩

/-- C6 (amended): when the timestamp digit pattern
(8 digits, dash, 6 digits, dash, id) is absent from the filename, the file is
silently skipped and the scan continues unchanged; only a present-but-invalid
datetime aborts the run. -/
theorem c6_unmatched_timestamp_skipped (root name : String) (size : Nat)
    (h : searchTs name.data = none) :
    processFile root name size = ScanOutcome.skip ∧
    ∀ pre post : List (String × Nat),
      scanFiles root (pre ++ (name, size) :: post) = scanFiles root (pre ++ post) := by
  have hskip : processFile root name size = ScanOutcome.skip := by
    rw [processFile]
    by_cases hm : reConflict name
    · rw [if_pos hm]
      by_cases hz : size = 0
      · rw [if_pos hz]
      · rw [if_neg hz, h]
    · rw [if_neg hm]
  exact ⟨hskip, scanFiles_skip_transparent root name size hskip⟩

/-- C6 witness: a marker-matching name with no timestamp digits is skipped
and is transparent to a surrounding scan. -/
theorem c6_unmatched_timestamp_skipped_witness :
    searchTs "a.sync-conflict-nodigits".data = none ∧
    processFile "d" "a.sync-conflict-nodigits" 7 = ScanOutcome.skip ∧
    scanFiles "d" ([("x.sync-conflict-20240101-120000-AAA", 3)] ++
        ("a.sync-conflict-nodigits", 7) :: []) =
      scanFiles "d" ([("x.sync-conflict-20240101-120000-AAA", 3)] ++ []) := by
  have h : searchTs "a.sync-conflict-nodigits".data = none := by decide
  exact ⟨h, (c6_unmatched_timestamp_skipped "d" "a.sync-conflict-nodigits" 7 h).1,
    (c6_unmatched_timestamp_skipped "d" "a.sync-conflict-nodigits" 7 h).2
      [("x.sync-conflict-20240101-120000-AAA", 3)] []⟩

/-- C7: counterexample — with a root that is missing or not a directory,
`os.walk` (default `onerror=None`) yields nothing, so the run returns
successfully with a header-only report instead of failing with a fatal
startup error. -/
theorem c7_missing_root_no_error_cex :
    runMain ⟨false, none⟩ 120
      ⟨false, [("d", [("f.sync-conflict-20240101-120000-AAA", 5)])], ⟨[], [], []⟩⟩ =
    Except.ok ⟨[headerLine 120, sepLine 120], [], ⟨[], [], []⟩⟩ := rfl

/-- C7 (amended): a missing or non-directory root is silently treated as an
empty tree: for every configuration the run succeeds, prints only the header
and separator, performs no action and leaves the filesystem unchanged. -/
theorem c7_missing_root_empty_run (cfg : Config) (termW : Nat) (w : World)
    (h : w.rootIsDir = false) :
    runMain cfg termW w = Except.ok ⟨[headerLine termW, sepLine termW], [], w.fs⟩ := by
  have hw : walkOf w = [] := by rw [walkOf, h]; rfl
  simp only [runMain, hw, scanTree]
  simp [actionsOf, groupsSorted, groupByPath, execute]

/-- C7 witness: the amended behavior at a concrete world whose root flag is
false. -/
theorem c7_missing_root_empty_run_witness :
    (⟨false, [("d", [("x.sync-conflict-20240101-120000-AAA", 3)])],
        ⟨[], [], []⟩⟩ : World).rootIsDir = false ∧
    runMain ⟨true, some "b"⟩ 80
        ⟨false, [("d", [("x.sync-conflict-20240101-120000-AAA", 3)])], ⟨[], [], []⟩⟩ =
      Except.ok ⟨[headerLine 80, sepLine 80], [], ⟨[], [], []⟩⟩ :=
  ⟨rfl, c7_missing_root_empty_run ⟨true, some "b"⟩ 80
    ⟨false, [("d", [("x.sync-conflict-20240101-120000-AAA", 3)])], ⟨[], [], []⟩⟩ rfl⟩

/-- C8: a zero-byte file matching the marker pattern yields no record — the
per-file step skips it before timestamp parsing, and a scan containing it
equals the scan without it, so it reaches no group and no action. -/
theorem c8_zero_byte_excluded (root name : String) (h : reConflict name = true) :
    processFile root name 0 = ScanOutcome.skip ∧
    ∀ pre post : List (String × Nat),
      scanFiles root (pre ++ (name, 0) :: post) = scanFiles root (pre ++ post) := by
  have hskip : processFile root name 0 = ScanOutcome.skip := by
    rw [processFile, if_pos h, if_pos rfl]
  exact ⟨hskip, scanFiles_skip_transparent root name 0 hskip⟩

/-- C8 witness: a concrete zero-byte marker file is skipped and transparent
to a surrounding scan. -/
theorem c8_zero_byte_excluded_witness :
    reConflict "f.sync-conflict-20240101-120000-AAA" = true ∧
    processFile "d" "f.sync-conflict-20240101-120000-AAA" 0 = ScanOutcome.skip ∧
    scanFiles "d" ([("g.sync-conflict-20240202-130000-BBB", 9)] ++
        ("f.sync-conflict-20240101-120000-AAA", 0) :: []) =
      scanFiles "d" ([("g.sync-conflict-20240202-130000-BBB", 9)] ++ []) := by
  have h : reConflict "f.sync-conflict-20240101-120000-AAA" = true := by decide
  exact ⟨h, (c8_zero_byte_excluded "d" "f.sync-conflict-20240101-120000-AAA" h).1,
    (c8_zero_byte_excluded "d" "f.sync-conflict-20240101-120000-AAA" h).2
      [("g.sync-conflict-20240202-130000-BBB", 9)] []⟩

/-- C9: counterexample — live run, one group with two members, both conflict
files present: the keep rename of the newest member is performed before the
older member's report row is printed, so the group's rows are not all printed
before the group's first destructive action. -/
theorem c9_group_rows_interleaved_cex :
    (runMain ⟨false, none⟩ 80
        ⟨true,
         [("d", [("f.sync-conflict-20240101-120000-AAA", 5),
                 ("f.sync-conflict-20240102-120000-BBB", 7)])],
         ⟨[("d/f.sync-conflict-20240101-120000-AAA", 1),
           ("d/f.sync-conflict-20240102-120000-BBB", 2)], [], []⟩⟩).map
      (fun r => (groupPrintsFirst r.events, r.events)) =
    Except.ok (false,
      [Event.printRow "d/f" "d/f.sync-conflict-20240102-120000-BBB",
       Event.fsMut MutKind.rename "d/f" "d/f.sync-conflict-20240102-120000-BBB",
       Event.printRow "d/f" "d/f.sync-conflict-20240101-120000-AAA",
       Event.fsMut MutKind.remove "d/f" "d/f.sync-conflict-20240101-120000-AAA"]) := rfl

/-- C9 (amended): the ordering that does hold, in every mode and for every
input: each record's report row is printed before any filesystem call for
that record's conflict file. -/
theorem c9_row_precedes_own_action (cfg : Config) (termW : Nat) (w : World) :
    (runMain cfg termW w).map (fun r => rowsPrecedeOwnMut r.events []) =
      (runMain cfg termW w).map (fun _ => true) := by
  cases hscan : scanTree (walkOf w) with
  | error e => simp [runMain, hscan, Except.map]
  | ok records =>
    simp only [runMain, hscan, Except.map]
    rw [execute_rowsPrecedeOwnMut]

/-- C10: report rows (and hence the execution order) are deterministic: one
row per action in plan order; the plans walk the groups in first-seen
discovery order of their original path; and inside each group members are
sorted by timestamp descending, with the keep entry for the newest record
first (its shape is given by the plan of each group). -/
theorem c10_report_order (cfg : Config) (fs : Fs) (l : List Conflict)
    (dry : Bool) (fnW : Nat) :
    (execute dry cfg.backup_dir fnW (actionsOf cfg fs l) fs).1 =
      (actionsOf cfg fs l).map (rowOf fnW) ∧
    actionsOf cfg fs l =
      (groupsSorted l).flatMap (fun g => planGroup cfg (origTsDisplay fs g.1) g.2) ∧
    (groupsSorted l).map Prod.fst = firstSeenKeys l ∧
    (∀ g ∈ groupsSorted l, TsSorted g.2) := by
  refine ⟨execute_rows dry cfg.backup_dir fnW (actionsOf cfg fs l) fs, rfl,
    groupsSorted_keys l, ?_⟩
  intro g hg
  rw [groupsSorted_members l g hg]
  exact sortDesc_sorted _

/-- C10 witness: concrete keys in first-seen order and a concretely sorted
group. -/
theorem c10_report_order_witness :
    (groupsSorted [(⟨"d/a", "d/f", 20240101120000⟩ : Conflict),
                   ⟨"e/c", "e/g", 20240103080000⟩,
                   ⟨"d/b", "d/f", 20240105090000⟩]).map Prod.fst =
      firstSeenKeys [(⟨"d/a", "d/f", 20240101120000⟩ : Conflict),
                     ⟨"e/c", "e/g", 20240103080000⟩,
                     ⟨"d/b", "d/f", 20240105090000⟩] ∧
    (("d/f", [(⟨"d/b", "d/f", 20240105090000⟩ : Conflict),
              ⟨"d/a", "d/f", 20240101120000⟩]) ∈
        groupsSorted [(⟨"d/a", "d/f", 20240101120000⟩ : Conflict),
                      ⟨"e/c", "e/g", 20240103080000⟩,
                      ⟨"d/b", "d/f", 20240105090000⟩]) ∧
    TsSorted [(⟨"d/b", "d/f", 20240105090000⟩ : Conflict),
              ⟨"d/a", "d/f", 20240101120000⟩] :=
  ⟨(c10_report_order ⟨false, none⟩ ⟨[], [], []⟩
      [⟨"d/a", "d/f", 20240101120000⟩, ⟨"e/c", "e/g", 20240103080000⟩,
       ⟨"d/b", "d/f", 20240105090000⟩] false 40).2.2.1,
   by decide,
   (c10_report_order ⟨false, none⟩ ⟨[], [], []⟩
      [⟨"d/a", "d/f", 20240101120000⟩, ⟨"e/c", "e/g", 20240103080000⟩,
       ⟨"d/b", "d/f", 20240105090000⟩] false 40).2.2.2
     ("d/f", [⟨"d/b", "d/f", 20240105090000⟩, ⟨"d/a", "d/f", 20240101120000⟩])
     (by decide)⟩
